import Mathlib

/-!
# Verification of the ember2D logic core

Shallow embedding of the ember2D 2D game-engine logic core (Go) and proofs
about its entity registry, tag index, component store, trigger matching and
event dispatcher.

Embedded source files:
* `internal/engine/entity/entity.go` — `Entity`, `World` (registry + tag index)
* `internal/engine/entity/tags.go` — `TagManager` (dual tag index, keyed by a
  comparable entity identifier, modelled as `String`)
* `components` package — generic `ComponentManager[T]`
* `internal/engine/behavior/trigger.go` — `Trigger.Matches`
* `behavior` package — `Dispatcher`, `Behavior`, `Condition`, `Action`
* `core` package — `Event`, `Context`

Go maps are modelled as functions (`String → Option _` or membership lists)
keyed by the entity identifier; Go mutates entities through shared pointers,
and since `World.Entities[id]` is the unique owner of the entity object with
that identifier, pointer mutation is modelled as updating the world's map at
that identifier.  Query results materialized from Go maps are modelled as the
identifier lists held by the index (claims only inspect membership).
-/

set_option linter.unusedVariables false

namespace Ember2D

/-! ## Tag normalization (entity.go `filterTag`, identical copy in tags.go)

Go iterates over the raw bytes of the string: uppercase ASCII (65–90) is
shifted by +32, then only bytes in a–z (97–122), 0–9 (48–57) or `_` (95) are
kept.  In UTF-8, every byte of a multi-byte character is ≥ 0x80 and is thus
dropped by the byte loop, exactly as the whole character is dropped by this
per-character model, so the per-character model agrees with Go's byte loop on
every input string. -/

def tagChar (c : Char) : Option Char :=
  let n := c.toNat
  let n := if 65 ≤ n && n ≤ 90 then n + 32 else n
  if (97 ≤ n && n ≤ 122) || (48 ≤ n && n ≤ 57) || n == 95 then some (Char.ofNat n) else none

def filterTag (s : String) : String := ⟨s.data.filterMap tagChar⟩

/-! ## Decimal formatting (the `%d` verb of `fmt.Sprintf` in `CreateEntity`)

`toDecimalF` is a fuel-based (hence structurally recursive and kernel
computable) rendering of nonnegative decimal printing; `toDecimal n` runs it
with enough fuel, and `toDecimal_eq` below recovers the natural recursion. -/

def digitChar (d : Nat) : Char := Char.ofNat (48 + d)

def toDecimalF : Nat → Nat → List Char
  | 0, _ => []
  | fuel + 1, n => if n < 10 then [digitChar n] else toDecimalF fuel (n / 10) ++ [digitChar (n % 10)]

def toDecimal (n : Nat) : List Char := toDecimalF (n + 1) n

/-- The `%d` verb for a signed 64-bit value: a minus sign followed by the
digits of the magnitude when negative, the digits alone otherwise. -/
def intToDecimal (n : Int) : List Char :=
  if n < 0 then '-' :: toDecimal (-n).toNat else toDecimal n.toNat

/-- `fmt.Sprintf("%s_%d", pfx, n)` of `World.CreateEntity`; the counter is
Go's `int` (64-bit, two's complement). -/
def mkId (pfx : String) (n : Int) : String := pfx ++ "_" ++ ⟨intToDecimal n⟩

/-- Go's wrapping 64-bit signed arithmetic: the value of the low 64 bits of
`n`, interpreted in two's complement.  `idCounter++` is
`int64Wrap (idCounter + 1)`. -/
def int64Wrap (n : Int) : Int := (n + 2 ^ 63) % 2 ^ 64 - 2 ^ 63

/-- Decimal reading, used only to prove `toDecimal` injective. -/
def fromDecimalAux (a : Nat) (l : List Char) : Nat :=
  l.foldl (fun a c => a * 10 + (c.toNat - 48)) a

/-! ## Entity and World (entity.go)

`Entity.Components map[string]any` is not modelled: no embedded operation or
claim reads or writes it (typed component data lives in `ComponentManager`).
-/

structure Entity where
  ID : String
  tags : List String
  isAlive : Bool
  deriving DecidableEq, Repr

structure World where
  Entities : String → Option Entity
  tagIndex : String → List String
  idCounter : Int -- Go `int`: 64-bit two's complement; increments wrap via int64Wrap
  entitiesToDelete : List String

/-- Point update of a map modelled as a function. -/
def updateFn {β : Type} (m : String → β) (k : String) (v : β) : String → β :=
  fun x => if x = k then v else m x

/-- Go map-key insertion `m[id] = …` viewed on the key set. -/
def mapInsert (l : List String) (id : String) : List String :=
  if id ∈ l then l else l ++ [id]

def NewWorld : World :=
  { Entities := fun _ => none
    tagIndex := fun _ => []
    idCounter := 0
    entitiesToDelete := [] }

def World.GetEntity (w : World) (id : String) : Option Entity := w.Entities id

def Entity.addTagInternal (e : Entity) (tag : String) : Entity :=
  { e with tags := e.tags ++ [tag] }

def Entity.hasTagInternal (e : Entity) (tag : String) : Bool :=
  e.tags.contains tag

/-- Go's swap-remove of the first occurrence: overwrite index `i` with the
last element, then drop the last element. -/
def swapRemoveTag (tags : List String) (tag : String) : List String :=
  match tags.findIdx? (fun t => t == tag) with
  | none => tags
  | some i => (tags.set i (tags.getLastD "")).dropLast

def Entity.removeTagInternal (e : Entity) (tag : String) : Entity :=
  { e with tags := swapRemoveTag e.tags tag }

/-- `World.AddTag`.  Go receives a pointer to an entity owned by
`w.Entities`; the model receives its identifier and updates the owner map. -/
def World.AddTag (w : World) (id : String) (tag0 : String) : World :=
  let tag := filterTag tag0
  if tag = "" then w
  else
    match w.Entities id with
    | none => w
    | some e =>
      if e.hasTagInternal tag then w
      else
        { w with
          Entities := updateFn w.Entities id (some (e.addTagInternal tag))
          tagIndex := updateFn w.tagIndex tag (mapInsert (w.tagIndex tag) e.ID) }

def World.RemoveTag (w : World) (id : String) (tag0 : String) : World :=
  let tag := filterTag tag0
  if tag = "" then w
  else
    match w.Entities id with
    | none => w
    | some e =>
      { w with
        Entities := updateFn w.Entities id (some (e.removeTagInternal tag))
        tagIndex := updateFn w.tagIndex tag ((w.tagIndex tag).filter (fun x => x ≠ e.ID)) }

def World.HasTag (w : World) (id : String) (tag : String) : Bool :=
  match w.Entities id with
  | none => false
  | some e => e.hasTagInternal (filterTag tag)

/-- `World.GetEntitiesByTag` materializes `tagIndex[filterTag tag]`; the model
returns the identifiers of those entities (Go returns the `*Entity` values,
one per identifier key). -/
def World.GetEntitiesByTag (w : World) (tag : String) : List String :=
  w.tagIndex (filterTag tag)

def World.DestroyEntity (w : World) (id : String) : World :=
  match w.Entities id with
  | none => w
  | some e =>
    if e.isAlive then
      { w with
        Entities := updateFn w.Entities id (some { e with isAlive := false })
        entitiesToDelete := w.entitiesToDelete ++ [id] }
    else w

/-- `World.IsAlive(entity *Entity)`: `entity != nil && entity.isAlive`. -/
def World.IsAlive (w : World) (e : Option Entity) : Bool :=
  match e with
  | none => false
  | some e => e.isAlive

/-- One iteration of the `Cleanup` loop body for a pending identifier. -/
def cleanupStep (w : World) (id : String) : World :=
  match w.Entities id with
  | none => w
  | some e =>
    { w with
      tagIndex :=
        e.tags.foldl (fun idx t => updateFn idx t ((idx t).filter (fun x => x ≠ e.ID))) w.tagIndex
      Entities := updateFn w.Entities id none }

def World.Cleanup (w : World) : World :=
  { w.entitiesToDelete.foldl cleanupStep w with entitiesToDelete := [] }

/-- `World.CreateEntity` returns the world after creation along with the
identifier of the returned `*Entity`.  `w.idCounter++` is Go's wrapping
64-bit increment. -/
def World.CreateEntity (w : World) (pfx : String) : World × String :=
  let id := mkId pfx w.idCounter
  let e : Entity := { ID := id, tags := [], isAlive := true }
  let w1 : World :=
    { w with idCounter := int64Wrap (w.idCounter + 1)
             Entities := updateFn w.Entities id (some e) }
  (w1.AddTag id pfx, id)

/-! ## TagManager (tags.go)

`tags.go` keys both maps by a comparable entity identifier type (`Entity`),
modelled as `String`.  Go's `map[...]bool` sets, including the `nil`-map
lookups that yield `false`, are modelled as boolean membership functions. -/

structure TagManager where
  entityTags : String → String → Bool
  tagIndex : String → String → Bool

def NewTagManager : TagManager :=
  { entityTags := fun _ _ => false, tagIndex := fun _ _ => false }

def TagManager.AddTag (tm : TagManager) (e : String) (tag0 : String) : TagManager :=
  let tag := filterTag tag0
  if tag = "" then tm
  else if tm.entityTags e tag then tm
  else
    { entityTags := fun e' t' => if e' = e ∧ t' = tag then true else tm.entityTags e' t'
      tagIndex := fun t' e' => if t' = tag ∧ e' = e then true else tm.tagIndex t' e' }

def TagManager.RemoveTag (tm : TagManager) (e : String) (tag0 : String) : TagManager :=
  let tag := filterTag tag0
  if tag = "" then tm
  else
    { entityTags := fun e' t' => if e' = e ∧ t' = tag then false else tm.entityTags e' t'
      tagIndex := fun t' e' => if t' = tag ∧ e' = e then false else tm.tagIndex t' e' }

def TagManager.HasTag (tm : TagManager) (e : String) (tag0 : String) : Bool :=
  tm.entityTags e (filterTag tag0)

/-- `RemoveAllTags` deletes `e` from the reverse index of exactly the tags in
`e`'s tag set, then drops `e`'s tag set. -/
def TagManager.RemoveAllTags (tm : TagManager) (e : String) : TagManager :=
  { entityTags := fun e' t' => if e' = e then false else tm.entityTags e' t'
    tagIndex := fun t' e' => if e' = e ∧ tm.entityTags e t' then false else tm.tagIndex t' e' }

/-- The mutating operations of the tag index. -/
inductive TMOp where
  | addTag : String → String → TMOp
  | removeTag : String → String → TMOp
  | removeAllTags : String → TMOp

def applyTMOp (tm : TagManager) : TMOp → TagManager
  | .addTag e t => tm.AddTag e t
  | .removeTag e t => tm.RemoveTag e t
  | .removeAllTags e => tm.RemoveAllTags e

def runTMOps (ops : List TMOp) : TagManager :=
  ops.foldl applyTMOp NewTagManager

/-! ## ComponentManager (components package) -/

structure ComponentManager (T : Type) where
  data : String → Option T

def NewComponentManager (T : Type) : ComponentManager T :=
  { data := fun _ => none }

def ComponentManager.Add {T : Type} (cm : ComponentManager T) (e : String) (v : T) :
    ComponentManager T :=
  { data := fun e' => if e' = e then some v else cm.data e' }

def ComponentManager.Get {T : Type} (cm : ComponentManager T) (e : String) : Option T :=
  cm.data e

def ComponentManager.Remove {T : Type} (cm : ComponentManager T) (e : String) :
    ComponentManager T :=
  { data := fun e' => if e' = e then none else cm.data e' }

def ComponentManager.Has {T : Type} (cm : ComponentManager T) (e : String) : Bool :=
  (cm.data e).isSome

/-- Mutating operations of one component store. -/
inductive MOp (T : Type) where
  | add : String → T → MOp T
  | remove : String → MOp T

def applyMOp {T : Type} (cm : ComponentManager T) : MOp T → ComponentManager T
  | .add e v => cm.Add e v
  | .remove e => cm.Remove e

def runMOps {T : Type} (ops : List (MOp T)) (cm : ComponentManager T) : ComponentManager T :=
  ops.foldl applyMOp cm

/-- Does the operation `Add` a component to entity `e`? -/
def MOp.addsTo {T : Type} : MOp T → String → Prop
  | .add e' _, e => e' = e
  | .remove _, _ => False

/-! ## Events and triggers (core/event.go, behavior/trigger.go)

`Event.Payload map[string]any` is omitted: it is opaque to the dispatcher and
trigger logic (only user conditions/actions inspect it), and no claim reads
it.  The Go field `Type` is rendered `type_` (`Type` is a Lean keyword). -/

structure Event where
  type_ : String
  A : String
  B : String
  deriving DecidableEq, Repr

structure Trigger where
  type_ : String
  Entities : List String
  Interval : Int
  deriving DecidableEq, Repr

def Trigger.Matches (t : Trigger) (ev : Event) : Bool :=
  if !(ev.type_ == t.type_) then false
  else if t.Entities.length == 0 then true
  else t.Entities.any (fun e => ev.A == e || ev.B == e)

/-! ## Behaviors and the dispatcher (behavior package)

The dispatcher is generic over the world-state type `W` that the rule bodies
read and mutate (in Go, conditions and actions are interface values closing
over arbitrary state reached through `*core.Context`).  A `Condition`
evaluates the context (spec contract: a pure predicate); an `Action` mutates
the world and may `Emit` events, which in Go append to the dispatcher's live
`eventQueue` — the model returns them and the caller appends them. -/

structure Context (W : Type) where
  World : W
  Event : Ember2D.Event

def Condition (W : Type) : Type := Context W → Bool

def Action (W : Type) : Type := Context W → W × List Event

structure Behavior (W : Type) where
  ID : String
  Trigger : Ember2D.Trigger
  Conditions : List (Condition W)
  Actions : List (Action W)

structure Dispatcher (W : Type) where
  World : W
  Behaviors : List (Behavior W)
  eventQueue : List Event

def Emit {W : Type} (d : Dispatcher W) (ev : Event) : Dispatcher W :=
  { d with eventQueue := d.eventQueue ++ [ev] }

/-- The condition loop of `processEvent`: evaluate in order, stopping at the
first `false`.  Returns the overall verdict together with how many conditions
were actually evaluated (the loop's `break` makes that count observable). -/
def evalConds {W : Type} : List (Condition W) → Context W → Bool × Nat
  | [], _ => (true, 0)
  | c :: cs, ctx =>
    if c ctx then
      let r := evalConds cs ctx
      (r.1, r.2 + 1)
    else (false, 1)

/-- The action loop of `processEvent`: execute in order against the live
world, collecting every emitted event in emission order. -/
def runActions {W : Type} (acts : List (Action W)) (w : W) (ev : Event) : W × List Event :=
  acts.foldl (fun acc a => let r := a ⟨acc.1, ev⟩; (r.1, acc.2 ++ r.2)) (w, [])

/-- The body of `processEvent` for one behavior: trigger match, condition
gate, actions, and the `"loop"` re-emission. -/
def stepBehavior {W : Type} (d : Dispatcher W) (ev : Event) (b : Behavior W) : Dispatcher W :=
  if !(b.Trigger.Matches ev) then d
  else
    let ctx : Context W := ⟨d.World, ev⟩
    if !(evalConds b.Conditions ctx).1 then d
    else
      let r := runActions b.Actions d.World ev
      let d' : Dispatcher W := { d with World := r.1, eventQueue := d.eventQueue ++ r.2 }
      if b.Trigger.type_ == "loop" then Emit d' ev else d'

def processEvent {W : Type} (d : Dispatcher W) (ev : Event) : Dispatcher W :=
  d.Behaviors.foldl (fun acc b => stepBehavior acc ev b) d

/-- `Dispatcher.Update`: take ownership of the queue, replace it with the
empty queue, then process the taken events in order (emissions during the
pass land in the live — i.e. next pass's — queue). -/
def Update {W : Type} (d : Dispatcher W) : Dispatcher W :=
  if d.eventQueue.isEmpty then d
  else
    let queue := d.eventQueue
    let d0 : Dispatcher W := { d with eventQueue := [] }
    queue.foldl processEvent d0

/-- Modelled from the spec: one rule applied to a (world, emissions) pair as
§4.4 words it — no live queue is consulted; emissions accumulate. -/
def specStep {W : Type} (ev : Event) (acc : W × List Event) (b : Behavior W) :
    W × List Event :=
  if !(b.Trigger.Matches ev) then acc
  else if !(evalConds b.Conditions ⟨acc.1, ev⟩).1 then acc
  else
    let r := runActions b.Actions acc.1 ev
    let out := acc.2 ++ r.2
    if b.Trigger.type_ == "loop" then (r.1, out ++ [ev]) else (r.1, out)

/-- Modelled from the spec: one-event processing — rules in registration
order against a frozen input, producing the final world and the list of
events emitted during processing (never consulting a live queue). -/
def processEventSpec {W : Type} (bs : List (Behavior W)) (w : W) (ev : Event) :
    W × List Event :=
  bs.foldl (specStep ev) (w, [])

def passStep {W : Type} (bs : List (Behavior W)) (acc : W × List Event) (ev : Event) :
    W × List Event :=
  let r := processEventSpec bs acc.1 ev
  (r.1, acc.2 ++ r.2)

/-- Modelled from the spec: a whole pass over a frozen event list, collecting
all emissions for the next pass. -/
def passRun {W : Type} (bs : List (Behavior W)) (w : W) (evs : List Event) :
    W × List Event :=
  evs.foldl (passStep bs) (w, [])

/-! ## Registry operation traces (for lifetime claims) -/

inductive WOp where
  | create : String → WOp
  | destroy : String → WOp
  | cleanup : WOp

/-- Apply one registry operation, recording identifiers returned by
`CreateEntity`. -/
def applyWOp : World × List String → WOp → World × List String
  | (w, ids), .create p => let r := w.CreateEntity p; (r.1, ids ++ [r.2])
  | (w, ids), .destroy id => (w.DestroyEntity id, ids)
  | (w, ids), .cleanup => (w.Cleanup, ids)

def runWOps (ops : List WOp) : World × List String :=
  ops.foldl applyWOp (NewWorld, [])

def WOp.isCreate : WOp → Bool
  | .create _ => true
  | .destroy _ => false
  | .cleanup => false

/-- Number of `CreateEntity` calls in a registry trace. -/
def createCount (ops : List WOp) : Nat :=
  (ops.filter WOp.isCreate).length

/-! ## Concrete instances used by witnesses -/

def condTrue : Condition Nat := fun _ => true

def condFalse : Condition Nat := fun _ => false

def evExample : Event := { type_ := "start", A := "a", B := "b" }

def behExample : Behavior Nat :=
  { ID := "r1"
    Trigger := { type_ := "start", Entities := [], Interval := 0 }
    Conditions := [condTrue, condFalse, condTrue]
    Actions := [] }

def dispExample : Dispatcher Nat :=
  { World := 0, Behaviors := [behExample], eventQueue := [] }

/-! ## The registry well-formedness invariant

Every clause holds of `NewWorld` and is preserved by the registry
operations; claims about arbitrary worlds assume it. -/

structure WF (w : World) : Prop where
  idOf : ∀ id e, w.Entities id = some e → e.ID = id
  fresh : ∀ id e, w.Entities id = some e → ∃ (p : String) (k : Int), id = mkId p k ∧ k < w.idCounter
  tagsNorm : ∀ id e, w.Entities id = some e → ∀ t ∈ e.tags, filterTag t = t ∧ t ≠ ""
  consis : ∀ id t, id ∈ w.tagIndex t ↔ ∃ e, w.Entities id = some e ∧ t ∈ e.tags
  pending : ∀ id ∈ w.entitiesToDelete, ∃ e, w.Entities id = some e ∧ e.isAlive = false

/-! ## Basic lemmas -/

theorem mem_mapInsert (l : List String) (id x : String) :
    x ∈ mapInsert l id ↔ x ∈ l ∨ x = id := by
  by_cases h : id ∈ l
  · simp only [mapInsert, if_pos h]
    constructor
    · exact Or.inl
    · rintro (hx | rfl)
      · exact hx
      · exact h
  · simp [mapInsert, h]

/-- C6 — `Trigger.Matches(ev)` is true exactly when the event's type label
equals the trigger's label and the filter list is empty or mentions one of
the event's two participants. -/
theorem trigger_matches_iff (t : Trigger) (ev : Event) :
    t.Matches ev = true ↔
      ev.type_ = t.type_ ∧ (t.Entities = [] ∨ ∃ x ∈ t.Entities, ev.A = x ∨ ev.B = x) := by
  unfold Trigger.Matches
  by_cases h : ev.type_ = t.type_
  · by_cases he : t.Entities = []
    · simp [h, he]
    · simp [h, he, List.length_eq_zero, List.any_eq_true]
  · simp [h]

theorem tagManager_inv_step (tm : TagManager)
    (h : ∀ e t, tm.tagIndex t e = tm.entityTags e t) (op : TMOp) :
    ∀ e t, (applyTMOp tm op).tagIndex t e = (applyTMOp tm op).entityTags e t := by
  intro e t
  cases op with
  | addTag e0 t0 =>
    unfold applyTMOp TagManager.AddTag
    by_cases h1 : filterTag t0 = ""
    · simp [h1, h]
    · by_cases h2 : tm.entityTags e0 (filterTag t0)
      · simp [h1, h2, h]
      · by_cases he : e = e0 <;> by_cases ht : t = filterTag t0 <;>
          simp [h1, h2, he, ht, h]
  | removeTag e0 t0 =>
    unfold applyTMOp TagManager.RemoveTag
    by_cases h1 : filterTag t0 = ""
    · simp [h1, h]
    · by_cases he : e = e0 <;> by_cases ht : t = filterTag t0 <;>
        simp [h1, he, ht, h]
  | removeAllTags e0 =>
    unfold applyTMOp TagManager.RemoveAllTags
    by_cases hc : e = e0
    · subst hc
      by_cases ht : tm.entityTags e t
      · simp [ht, h]
      · simp [ht, h]
    · simp [hc, h]

/-- C2 — bidirectional tag-index consistency: in every `TagManager` state
reachable from a fresh manager by any sequence of `AddTag`, `RemoveTag` and
`RemoveAllTags` operations, entity `e` is in the reverse-index set of tag `t`
exactly when `t` is in `e`'s tag set. -/
theorem tagManager_bidirectional_invariant (ops : List TMOp) :
    ∀ e t, (runTMOps ops).tagIndex t e = (runTMOps ops).entityTags e t := by
  unfold runTMOps
  suffices h : ∀ tm, (∀ e t, tm.tagIndex t e = tm.entityTags e t) →
      ∀ e t, (ops.foldl applyTMOp tm).tagIndex t e = (ops.foldl applyTMOp tm).entityTags e t by
    exact h NewTagManager (fun _ _ => rfl)
  induction ops with
  | nil => intro tm h; exact h
  | cons op rest ih =>
    intro tm h
    exact ih (applyTMOp tm op) (tagManager_inv_step tm h op)

/-! ## Dispatcher lemmas (C4, C5) -/

theorem stepBehavior_eq {W : Type} (d : Dispatcher W) (ev : Event) (b : Behavior W) :
    stepBehavior d ev b =
      ⟨(specStep ev (d.World, []) b).1, d.Behaviors,
       d.eventQueue ++ (specStep ev (d.World, []) b).2⟩ := by
  unfold stepBehavior specStep Emit
  by_cases hm : b.Trigger.Matches ev
  · by_cases hc : (evalConds b.Conditions ⟨d.World, ev⟩).1
    · by_cases hl : b.Trigger.type_ == "loop" <;>
        simp [hm, hc, hl, List.append_assoc]
    · simp [hm, hc]
  · simp [hm]

theorem foldl_out {W α : Type} (f : W × List Event → α → W × List Event)
    (Hf : ∀ w out a, f (w, out) a = ((f (w, []) a).1, out ++ (f (w, []) a).2)) :
    ∀ (l : List α) (w : W) (out : List Event),
      l.foldl f (w, out) = ((l.foldl f (w, [])).1, out ++ (l.foldl f (w, [])).2) := by
  intro l
  induction l with
  | nil => intro w out; simp
  | cons a rest ih =>
    intro w out
    have key : ∀ q : W × List Event,
        rest.foldl f q = ((rest.foldl f (q.1, [])).1, q.2 ++ (rest.foldl f (q.1, [])).2) :=
      fun q => ih q.1 q.2
    calc (a :: rest).foldl f (w, out)
        = rest.foldl f (f (w, out) a) := by rw [List.foldl_cons]
      _ = rest.foldl f ((f (w, []) a).1, out ++ (f (w, []) a).2) := by rw [Hf]
      _ = ((rest.foldl f ((f (w, []) a).1, [])).1,
            (out ++ (f (w, []) a).2) ++ (rest.foldl f ((f (w, []) a).1, [])).2) := ih _ _
      _ = (((a :: rest).foldl f (w, [])).1, out ++ ((a :: rest).foldl f (w, [])).2) := by
            rw [List.foldl_cons, key (f (w, []) a)]
            simp [List.append_assoc]

theorem specStep_out {W : Type} (ev : Event) (b : Behavior W) (w : W) (out : List Event) :
    specStep ev (w, out) b = ((specStep ev (w, []) b).1, out ++ (specStep ev (w, []) b).2) := by
  unfold specStep
  by_cases hm : b.Trigger.Matches ev
  · by_cases hc : (evalConds b.Conditions ⟨w, ev⟩).1
    · by_cases hl : b.Trigger.type_ == "loop" <;>
        simp [hm, hc, hl, List.append_assoc]
    · simp [hm, hc]
  · simp [hm]

theorem passStep_out {W : Type} (bs : List (Behavior W)) (w : W) (out : List Event)
    (ev : Event) :
    passStep bs (w, out) ev = ((passStep bs (w, []) ev).1, out ++ (passStep bs (w, []) ev).2) := by
  simp [passStep]

theorem processEvent_sim {W : Type} (bs : List (Behavior W)) (w : W) (q : List Event)
    (ev : Event) :
    processEvent ⟨w, bs, q⟩ ev =
      ⟨(processEventSpec bs w ev).1, bs, q ++ (processEventSpec bs w ev).2⟩ := by
  show (⟨w, bs, q⟩ : Dispatcher W).Behaviors.foldl (fun acc b => stepBehavior acc ev b) ⟨w, bs, q⟩ =
    ⟨(processEventSpec bs w ev).1, bs, q ++ (processEventSpec bs w ev).2⟩
  unfold processEventSpec
  suffices h : ∀ (bl : List (Behavior W)) (w : W) (q : List Event),
      bl.foldl (fun acc b => stepBehavior acc ev b) ⟨w, bs, q⟩ =
        ⟨(bl.foldl (specStep ev) (w, [])).1, bs, q ++ (bl.foldl (specStep ev) (w, [])).2⟩ by
    exact h bs w q
  intro bl
  induction bl with
  | nil => intro w q; simp
  | cons b rest ih =>
    intro w q
    have hout : ∀ p : W × List Event,
        rest.foldl (specStep ev) p =
          ((rest.foldl (specStep ev) (p.1, [])).1,
            p.2 ++ (rest.foldl (specStep ev) (p.1, [])).2) :=
      fun p => foldl_out (specStep ev) (fun w' out' b' => specStep_out ev b' w' out') rest p.1 p.2
    calc (b :: rest).foldl (fun acc b' => stepBehavior acc ev b') ⟨w, bs, q⟩
        = rest.foldl (fun acc b' => stepBehavior acc ev b') (stepBehavior ⟨w, bs, q⟩ ev b) := by
            rw [List.foldl_cons]
      _ = rest.foldl (fun acc b' => stepBehavior acc ev b')
            ⟨(specStep ev (w, []) b).1, bs, q ++ (specStep ev (w, []) b).2⟩ := by
            rw [stepBehavior_eq]
      _ = ⟨(rest.foldl (specStep ev) ((specStep ev (w, []) b).1, [])).1, bs,
            (q ++ (specStep ev (w, []) b).2) ++
              (rest.foldl (specStep ev) ((specStep ev (w, []) b).1, [])).2⟩ := ih _ _
      _ = ⟨((b :: rest).foldl (specStep ev) (w, [])).1, bs,
            q ++ ((b :: rest).foldl (specStep ev) (w, [])).2⟩ := by
            rw [List.foldl_cons, hout (specStep ev (w, []) b)]
            simp [List.append_assoc]

theorem passFold_sim {W : Type} (bs : List (Behavior W)) :
    ∀ (evs : List Event) (w : W) (q : List Event),
      evs.foldl processEvent ⟨w, bs, q⟩ =
        ⟨(passRun bs w evs).1, bs, q ++ (passRun bs w evs).2⟩ := by
  intro evs
  induction evs with
  | nil => intro w q; simp [passRun]
  | cons ev rest ih =>
    intro w q
    have hout : ∀ p : W × List Event,
        rest.foldl (passStep bs) p =
          ((rest.foldl (passStep bs) (p.1, [])).1,
            p.2 ++ (rest.foldl (passStep bs) (p.1, [])).2) :=
      fun p => foldl_out (passStep bs) (fun w' out' ev' => passStep_out bs w' out' ev') rest p.1 p.2
    calc (ev :: rest).foldl processEvent ⟨w, bs, q⟩
        = rest.foldl processEvent (processEvent ⟨w, bs, q⟩ ev) := by rw [List.foldl_cons]
      _ = rest.foldl processEvent
            ⟨(processEventSpec bs w ev).1, bs, q ++ (processEventSpec bs w ev).2⟩ := by
            rw [processEvent_sim]
      _ = ⟨(passRun bs (processEventSpec bs w ev).1 rest).1, bs,
            (q ++ (processEventSpec bs w ev).2) ++
              (passRun bs (processEventSpec bs w ev).1 rest).2⟩ := ih _ _
      _ = ⟨(passRun bs w (ev :: rest)).1, bs, q ++ (passRun bs w (ev :: rest)).2⟩ := by
            unfold passRun
            rw [List.foldl_cons, hout (passStep bs (w, []) ev)]
            simp [passStep, List.append_assoc]

/-- C4 — `Update` first takes ownership of the queue: its result is exactly
the frozen-pass processing (`passRun`) of the pre-call queue contents, with
the post-call queue holding exactly the events emitted during the pass (loop
re-emissions included); those emissions are in turn exactly what the next
`Update` call processes, never the current one. -/
theorem update_takes_queue_ownership {W : Type} (d : Dispatcher W) :
    Update d = ⟨(passRun d.Behaviors d.World d.eventQueue).1, d.Behaviors,
                 (passRun d.Behaviors d.World d.eventQueue).2⟩
    ∧ (Update (Update d)).World =
        (passRun d.Behaviors (passRun d.Behaviors d.World d.eventQueue).1
          (passRun d.Behaviors d.World d.eventQueue).2).1 := by
  have main : ∀ d' : Dispatcher W,
      Update d' = ⟨(passRun d'.Behaviors d'.World d'.eventQueue).1, d'.Behaviors,
        (passRun d'.Behaviors d'.World d'.eventQueue).2⟩ := by
    intro d'
    obtain ⟨w, bs, q⟩ := d'
    unfold Update
    by_cases h : q.isEmpty
    · have hq : q = [] := by simpa [List.isEmpty_iff] using h
      subst hq
      simp [passRun]
    · simp only [h, if_neg, Bool.false_eq_true, if_false]
      have := passFold_sim bs q w []
      simpa using this
  refine ⟨main d, ?_⟩
  rw [main d, main _]

/-- C5 — processing order and gating inside one `Update` call: events are
processed in emission order and rules in registration order (the two `foldl`
characterizations), conditions are evaluated in listed order with
short-circuit (a first false condition at index `k` stops evaluation after
exactly `k + 1` conditions and leaves the dispatcher unchanged), and the
actions run, in listed order, exactly when the trigger matches and every
condition returned true (vacuously for an empty condition list). -/
theorem dispatcher_ordering_gating {W : Type} (d : Dispatcher W) (ev : Event)
    (b : Behavior W) :
    (b.Trigger.Matches ev = false → stepBehavior d ev b = d)
    ∧ ((evalConds b.Conditions ⟨d.World, ev⟩).1 = true ↔
        ∀ c ∈ b.Conditions, c ⟨d.World, ev⟩ = true)
    ∧ (∀ k, (hk : k < b.Conditions.length) →
        (∀ i, (hi : i < k) →
          (b.Conditions.get ⟨i, Nat.lt_trans hi hk⟩) ⟨d.World, ev⟩ = true) →
        (b.Conditions.get ⟨k, hk⟩) ⟨d.World, ev⟩ = false →
        evalConds b.Conditions ⟨d.World, ev⟩ = (false, k + 1) ∧ stepBehavior d ev b = d)
    ∧ (b.Trigger.Matches ev = true →
        (∀ c ∈ b.Conditions, c ⟨d.World, ev⟩ = true) →
        stepBehavior d ev b =
          (if b.Trigger.type_ == "loop" then
            Emit ⟨(runActions b.Actions d.World ev).1, d.Behaviors,
              d.eventQueue ++ (runActions b.Actions d.World ev).2⟩ ev
          else ⟨(runActions b.Actions d.World ev).1, d.Behaviors,
              d.eventQueue ++ (runActions b.Actions d.World ev).2⟩))
    ∧ (runActions b.Actions d.World ev =
        b.Actions.foldl (fun acc a => let r := a ⟨acc.1, ev⟩; (r.1, acc.2 ++ r.2))
          (d.World, []))
    ∧ (processEvent d ev = d.Behaviors.foldl (fun acc b' => stepBehavior acc ev b') d)
    ∧ (d.eventQueue ≠ [] →
        Update d = d.eventQueue.foldl processEvent ⟨d.World, d.Behaviors, []⟩) := by
  have evalConds_iff : ∀ (cs : List (Condition W)) (ctx : Context W),
      (evalConds cs ctx).1 = true ↔ ∀ c ∈ cs, c ctx = true := by
    intro cs ctx
    induction cs with
    | nil => simp [evalConds]
    | cons c rest ih => by_cases h : c ctx <;> simp [evalConds, h, ih]
  have evalConds_short : ∀ (cs : List (Condition W)) (ctx : Context W) (k : Nat)
      (hk : k < cs.length),
      (∀ i, (hi : i < k) → (cs.get ⟨i, Nat.lt_trans hi hk⟩) ctx = true) →
      (cs.get ⟨k, hk⟩) ctx = false →
      evalConds cs ctx = (false, k + 1) := by
    intro cs
    induction cs with
    | nil => intro ctx k hk; exact absurd hk (Nat.not_lt_zero k)
    | cons c rest ih =>
      intro ctx k hk hpre hfalse
      cases k with
      | zero =>
        have hc : c ctx = false := hfalse
        simp [evalConds, hc]
      | succ k' =>
        have hc : c ctx = true := hpre 0 (Nat.succ_pos k')
        have hk' : k' < rest.length := Nat.lt_of_succ_lt_succ hk
        have hrest := ih ctx k' hk'
          (fun i hi => hpre (i + 1) (Nat.succ_lt_succ hi)) hfalse
        simp [evalConds, hc, hrest]
  constructor
  · intro hm; simp [stepBehavior, hm]
  constructor
  · exact evalConds_iff b.Conditions ⟨d.World, ev⟩
  constructor
  · intro k hk hpre hfalse
    have he := evalConds_short b.Conditions ⟨d.World, ev⟩ k hk hpre hfalse
    refine ⟨he, ?_⟩
    by_cases hm : b.Trigger.Matches ev <;> simp [stepBehavior, hm, he]
  constructor
  · intro hm hall
    have hc : (evalConds b.Conditions ⟨d.World, ev⟩).1 = true :=
      (evalConds_iff b.Conditions ⟨d.World, ev⟩).2 hall
    by_cases hl : b.Trigger.type_ == "loop" <;>
      simp [stepBehavior, hm, hc, hl, Emit]
  constructor
  · rfl
  constructor
  · rfl
  · intro hq
    have h : ¬d.eventQueue.isEmpty := by simpa [List.isEmpty_iff] using hq
    simp [Update, h]

/-- Witness for C5 at a concrete dispatcher over `Nat` world state: rule
`behExample` has conditions `[true, false, true]`; the first false condition
sits at index 1, exactly 2 conditions are evaluated (the third is not), and
the dispatcher is left unchanged. -/
theorem dispatcher_ordering_gating_witness :
    evalConds behExample.Conditions ⟨(0 : Nat), evExample⟩ = (false, 2)
    ∧ stepBehavior dispExample evExample behExample = dispExample := by
  have h := (dispatcher_ordering_gating dispExample evExample behExample).2.2.1 1
    (by decide)
    (fun i hi => by
      have h0 : i = 0 := by omega
      subst h0
      rfl)
    rfl
  exact ⟨h.1, h.2⟩

/-! ## Normalization lemmas -/

theorem char_ofNat_toNat : ∀ m, m < 128 → (Char.ofNat m).toNat = m := by decide

theorem tagChar_fix_aux : ∀ m, m < 123 →
    ((97 ≤ m ∧ m ≤ 122) ∨ (48 ≤ m ∧ m ≤ 57) ∨ m = 95) →
    tagChar (Char.ofNat m) = some (Char.ofNat m) := by decide

theorem tagChar_some (c c' : Char) (h : tagChar c = some c') :
    ∃ m, c' = Char.ofNat m ∧ m < 123 ∧
      ((97 ≤ m ∧ m ≤ 122) ∨ (48 ≤ m ∧ m ≤ 57) ∨ m = 95) := by
  unfold tagChar at h
  by_cases h1 : (65 ≤ c.toNat && c.toNat ≤ 90) = true
  · simp only [h1, if_true] at h
    by_cases h2 : ((97 ≤ c.toNat + 32 && c.toNat + 32 ≤ 122) ||
        (48 ≤ c.toNat + 32 && c.toNat + 32 ≤ 57) || c.toNat + 32 == 95) = true
    · rw [if_pos h2] at h
      refine ⟨c.toNat + 32, (Option.some.inj h).symm, ?_, ?_⟩ <;>
        · simp only [Bool.or_eq_true, Bool.and_eq_true, decide_eq_true_eq,
            beq_iff_eq] at h2
          omega
    · rw [if_neg h2] at h
      exact absurd h (by simp)
  · simp only [h1, if_false, Bool.false_eq_true] at h
    by_cases h2 : ((97 ≤ c.toNat && c.toNat ≤ 122) ||
        (48 ≤ c.toNat && c.toNat ≤ 57) || c.toNat == 95) = true
    · rw [if_pos h2] at h
      refine ⟨c.toNat, (Option.some.inj h).symm, ?_, ?_⟩ <;>
        · simp only [Bool.or_eq_true, Bool.and_eq_true, decide_eq_true_eq,
            beq_iff_eq] at h2
          omega
    · rw [if_neg h2] at h
      exact absurd h (by simp)

theorem tagChar_fix (c c' : Char) (h : tagChar c = some c') : tagChar c' = some c' := by
  obtain ⟨m, rfl, hlt, hrange⟩ := tagChar_some c c' h
  exact tagChar_fix_aux m hlt hrange

theorem filterMap_tagChar_idem (l : List Char) :
    (l.filterMap tagChar).filterMap tagChar = l.filterMap tagChar := by
  induction l with
  | nil => rfl
  | cons c rest ih =>
    cases h : tagChar c with
    | none => simp [List.filterMap_cons, h, ih]
    | some c' => simp [List.filterMap_cons, h, tagChar_fix c c' h, ih]

theorem filterTag_idem (s : String) : filterTag (filterTag s) = filterTag s := by
  show String.mk ((s.data.filterMap tagChar).filterMap tagChar) =
    String.mk (s.data.filterMap tagChar)
  rw [filterMap_tagChar_idem]

/-! ## Decimal lemmas -/

theorem toDecimalF_fuel : ∀ (f1 : Nat), ∀ (f2 n : Nat), n < f1 → n < f2 →
    toDecimalF f1 n = toDecimalF f2 n := by
  intro f1
  induction f1 with
  | zero => intro f2 n h1; exact absurd h1 (Nat.not_lt_zero n)
  | succ f1' ih =>
    intro f2 n h1 h2
    cases f2 with
    | zero => exact absurd h2 (Nat.not_lt_zero n)
    | succ f2' =>
      by_cases h : n < 10
      · simp [toDecimalF, h]
      · simp only [toDecimalF, h, if_false, Bool.false_eq_true]
        rw [ih f2' (n / 10) (by omega) (by omega)]

theorem toDecimal_eq (n : Nat) :
    toDecimal n = if n < 10 then [digitChar n]
      else toDecimal (n / 10) ++ [digitChar (n % 10)] := by
  by_cases h : n < 10
  · rw [if_pos h]
    simp [toDecimal, toDecimalF, h]
  · rw [if_neg h]
    show toDecimalF (n + 1) n = toDecimalF (n / 10 + 1) (n / 10) ++ [digitChar (n % 10)]
    have hu : toDecimalF (n + 1) n = toDecimalF n (n / 10) ++ [digitChar (n % 10)] := by
      simp [toDecimalF, h]
    rw [hu, toDecimalF_fuel n (n / 10 + 1) (n / 10) (by omega) (Nat.lt_succ_self _)]

theorem digitChar_toNat : ∀ d, d < 10 → (digitChar d).toNat = 48 + d := by decide

theorem fromDecimal_toDecimal (n : Nat) : fromDecimalAux 0 (toDecimal n) = n := by
  induction n using Nat.strong_induction_on with
  | _ n ih =>
    rw [toDecimal_eq]
    by_cases h : n < 10
    · rw [if_pos h]
      simp [fromDecimalAux, digitChar_toNat n h]
    · rw [if_neg h]
      unfold fromDecimalAux
      rw [List.foldl_append]
      have h1 : n / 10 < n := by omega
      have h2 := ih (n / 10) h1
      unfold fromDecimalAux at h2
      rw [h2]
      simp [digitChar_toNat (n % 10) (by omega)]
      omega

theorem toDecimal_inj (m n : Nat) (h : toDecimal m = toDecimal n) : m = n := by
  have hm := fromDecimal_toDecimal m
  rw [h, fromDecimal_toDecimal n] at hm
  exact hm.symm

theorem toDecimal_digits (n : Nat) : ∀ c ∈ toDecimal n, 48 ≤ c.toNat ∧ c.toNat ≤ 57 := by
  induction n using Nat.strong_induction_on with
  | _ n ih =>
    rw [toDecimal_eq]
    by_cases h : n < 10
    · rw [if_pos h]
      intro c hc
      rw [List.mem_singleton] at hc
      subst hc
      rw [digitChar_toNat n h]
      omega
    · rw [if_neg h]
      intro c hc
      rw [List.mem_append] at hc
      rcases hc with hc | hc
      · exact ih (n / 10) (by omega) c hc
      · rw [List.mem_singleton] at hc
        subst hc
        rw [digitChar_toNat (n % 10) (by omega)]
        omega

theorem underscore_not_mem_toDecimal (n : Nat) : '_' ∉ toDecimal n := by
  intro h
  have hd := toDecimal_digits n '_' h
  have h95 : ('_').toNat = 95 := rfl
  omega

theorem append_underscore_inj (xs1 : List Char) : ∀ (xs2 ys1 ys2 : List Char),
    '_' ∉ xs1 → '_' ∉ xs2 →
    xs1 ++ '_' :: ys1 = xs2 ++ '_' :: ys2 → xs1 = xs2 ∧ ys1 = ys2 := by
  induction xs1 with
  | nil =>
    intro xs2 ys1 ys2 h1 h2 h
    cases xs2 with
    | nil =>
      simp only [List.nil_append, List.cons.injEq] at h
      exact ⟨rfl, h.2⟩
    | cons b rest2 =>
      simp only [List.nil_append, List.cons_append, List.cons.injEq] at h
      exact absurd (h.1 ▸ List.mem_cons_self b rest2) h2
  | cons a rest ih =>
    intro xs2 ys1 ys2 h1 h2 h
    cases xs2 with
    | nil =>
      simp only [List.nil_append, List.cons_append, List.cons.injEq] at h
      exact absurd (h.1.symm ▸ List.mem_cons_self a rest) h1
    | cons b rest2 =>
      simp only [List.cons_append, List.cons.injEq] at h
      obtain ⟨hab, hrest⟩ := h
      have hr := ih rest2 ys1 ys2
        (fun hm => h1 (List.mem_cons_of_mem a hm))
        (fun hm => h2 (List.mem_cons_of_mem b hm)) hrest
      exact ⟨by rw [hab, hr.1], hr.2⟩

theorem intToDecimal_inj (m n : Int) (h : intToDecimal m = intToDecimal n) : m = n := by
  unfold intToDecimal at h
  by_cases hm : m < 0 <;> by_cases hn : n < 0
  · rw [if_pos hm, if_pos hn, List.cons.injEq] at h
    have hd := toDecimal_inj _ _ h.2
    omega
  · rw [if_pos hm, if_neg hn] at h
    exfalso
    have h0 : ('-') ∈ toDecimal n.toNat := h ▸ List.mem_cons_self '-' _
    have hd := toDecimal_digits n.toNat '-' h0
    have h45 : ('-').toNat = 45 := rfl
    omega
  · rw [if_neg hm, if_pos hn] at h
    exfalso
    have h0 : ('-') ∈ toDecimal m.toNat := h ▸ List.mem_cons_self '-' _
    have hd := toDecimal_digits m.toNat '-' h0
    have h45 : ('-').toNat = 45 := rfl
    omega
  · rw [if_neg hm, if_neg hn] at h
    have hd := toDecimal_inj _ _ h
    omega

theorem underscore_not_mem_intToDecimal (n : Int) : '_' ∉ intToDecimal n := by
  unfold intToDecimal
  by_cases h : n < 0
  · rw [if_pos h]
    intro hm
    rcases List.mem_cons.mp hm with h1 | h1
    · exact absurd h1 (by decide)
    · exact underscore_not_mem_toDecimal _ h1
  · rw [if_neg h]
    exact underscore_not_mem_toDecimal _

theorem mkId_counter_inj (p1 p2 : String) (n1 n2 : Int)
    (h : mkId p1 n1 = mkId p2 n2) : n1 = n2 := by
  have hd : p1.data ++ '_' :: intToDecimal n1 = p2.data ++ '_' :: intToDecimal n2 := by
    have hc := congrArg String.data h
    simpa [mkId, String.data_append] using hc
  have hrev : (intToDecimal n1).reverse ++ '_' :: p1.data.reverse =
      (intToDecimal n2).reverse ++ '_' :: p2.data.reverse := by
    have hc := congrArg List.reverse hd
    simpa [List.reverse_append] using hc
  have h1 : '_' ∉ (intToDecimal n1).reverse := by
    rw [List.mem_reverse]
    exact underscore_not_mem_intToDecimal n1
  have h2 : '_' ∉ (intToDecimal n2).reverse := by
    rw [List.mem_reverse]
    exact underscore_not_mem_intToDecimal n2
  have key := append_underscore_inj (intToDecimal n1).reverse (intToDecimal n2).reverse
    p1.data.reverse p2.data.reverse h1 h2 hrev
  exact intToDecimal_inj n1 n2 (List.reverse_injective key.1)

theorem int64Wrap_eq_self (x : Int) (h1 : -(2 ^ 63) ≤ x) (h2 : x < 2 ^ 63) :
    int64Wrap x = x := by
  unfold int64Wrap
  omega

theorem int64Wrap_emod (a b : Int) (h : int64Wrap a = int64Wrap b) :
    a % 2 ^ 64 = b % 2 ^ 64 := by
  unfold int64Wrap at h
  omega

theorem int64Wrap_step (c : Int) : int64Wrap (int64Wrap c + 1) = int64Wrap (c + 1) := by
  unfold int64Wrap
  omega

/-! ## Registry lemmas -/

theorem updateFn_same {β : Type} (m : String → β) (k : String) (v : β) :
    updateFn m k v k = v := by
  simp [updateFn]

theorem updateFn_other {β : Type} (m : String → β) (k : String) (v : β) (x : String)
    (h : x ≠ k) : updateFn m k v x = m x := by
  simp [updateFn, h]

theorem contains_iff_mem (l : List String) (a : String) : l.contains a = true ↔ a ∈ l :=
  ⟨fun h => List.mem_of_elem_eq_true h, fun h => List.elem_eq_true_of_mem h⟩

theorem AddTag_empty (w : World) (id0 tag0 : String) (h : filterTag tag0 = "") :
    w.AddTag id0 tag0 = w := by
  simp [World.AddTag, h]

theorem AddTag_none (w : World) (id0 tag0 : String) (h1 : filterTag tag0 ≠ "")
    (h2 : w.Entities id0 = none) : w.AddTag id0 tag0 = w := by
  simp [World.AddTag, h1, h2]

theorem AddTag_has (w : World) (id0 tag0 : String) (e : Entity) (h1 : filterTag tag0 ≠ "")
    (h2 : w.Entities id0 = some e) (h3 : e.hasTagInternal (filterTag tag0) = true) :
    w.AddTag id0 tag0 = w := by
  simp [World.AddTag, h1, h2, h3]

theorem AddTag_new (w : World) (id0 tag0 : String) (e : Entity) (h1 : filterTag tag0 ≠ "")
    (h2 : w.Entities id0 = some e) (h3 : e.hasTagInternal (filterTag tag0) = false) :
    w.AddTag id0 tag0 =
      { w with
        Entities := updateFn w.Entities id0 (some (e.addTagInternal (filterTag tag0)))
        tagIndex := updateFn w.tagIndex (filterTag tag0)
          (mapInsert (w.tagIndex (filterTag tag0)) e.ID) } := by
  simp [World.AddTag, h1, h2, h3]

theorem wf_new : WF NewWorld where
  idOf := fun id e h => by simp [NewWorld] at h
  fresh := fun id e h => by simp [NewWorld] at h
  tagsNorm := fun id e h => by simp [NewWorld] at h
  consis := fun id t => by simp [NewWorld]
  pending := fun id h => by simp [NewWorld] at h

theorem wf_AddTag (w : World) (hw : WF w) (id0 tag0 : String) : WF (w.AddTag id0 tag0) := by
  by_cases h1 : filterTag tag0 = ""
  · rw [AddTag_empty w id0 tag0 h1]; exact hw
  cases h2 : w.Entities id0 with
  | none => rw [AddTag_none w id0 tag0 h1 h2]; exact hw
  | some e =>
    cases h3 : e.hasTagInternal (filterTag tag0) with
    | true => rw [AddTag_has w id0 tag0 e h1 h2 h3]; exact hw
    | false =>
      rw [AddTag_new w id0 tag0 e h1 h2 h3]
      have hID : e.ID = id0 := hw.idOf id0 e h2
      constructor
      · intro id' e' h'
        dsimp only at h'
        by_cases hid : id' = id0
        · rw [hid, updateFn_same] at h'
          have he' : e' = e.addTagInternal (filterTag tag0) := (Option.some.inj h').symm
          rw [he', hid]
          simpa [Entity.addTagInternal] using hID
        · rw [updateFn_other _ _ _ _ hid] at h'
          exact hw.idOf id' e' h'
      · intro id' e' h'
        dsimp only at h' ⊢
        by_cases hid : id' = id0
        · rw [hid]
          exact hw.fresh id0 e h2
        · rw [updateFn_other _ _ _ _ hid] at h'
          exact hw.fresh id' e' h'
      · intro id' e' h' t ht
        dsimp only at h'
        by_cases hid : id' = id0
        · rw [hid, updateFn_same] at h'
          have he' : e' = e.addTagInternal (filterTag tag0) := (Option.some.inj h').symm
          rw [he'] at ht
          simp only [Entity.addTagInternal, List.mem_append, List.mem_singleton] at ht
          rcases ht with ht | ht
          · exact hw.tagsNorm id0 e h2 t ht
          · rw [ht]
            exact ⟨filterTag_idem tag0, h1⟩
        · rw [updateFn_other _ _ _ _ hid] at h'
          exact hw.tagsNorm id' e' h' t ht
      · intro id' t
        dsimp only
        by_cases htg : t = filterTag tag0
        · rw [htg, updateFn_same, mem_mapInsert, hID]
          by_cases hid : id' = id0
          · rw [hid, updateFn_same]
            constructor
            · intro _
              exact ⟨e.addTagInternal (filterTag tag0), rfl, by simp [Entity.addTagInternal]⟩
            · intro _
              exact Or.inr rfl
          · rw [updateFn_other _ _ _ _ hid]
            have hc := hw.consis id' (filterTag tag0)
            constructor
            · rintro (hmem | heq)
              · exact hc.mp hmem
              · exact absurd heq hid
            · intro hex
              exact Or.inl (hc.mpr hex)
        · rw [updateFn_other _ _ _ _ htg]
          by_cases hid : id' = id0
          · rw [hid, updateFn_same]
            have hc := hw.consis id0 t
            rw [h2] at hc
            constructor
            · intro hmem
              obtain ⟨e'', he'', ht''⟩ := hc.mp hmem
              have he3 : e = e'' := Option.some.inj he''
              rw [← he3] at ht''
              exact ⟨e.addTagInternal (filterTag tag0), rfl, by
                simp [Entity.addTagInternal, ht'']⟩
            · rintro ⟨e', he', ht'⟩
              have he'' : e' = e.addTagInternal (filterTag tag0) := (Option.some.inj he').symm
              rw [he''] at ht'
              simp only [Entity.addTagInternal, List.mem_append, List.mem_singleton] at ht'
              rcases ht' with ht' | ht'
              · exact hc.mpr ⟨e, rfl, ht'⟩
              · exact absurd ht' htg
          · rw [updateFn_other _ _ _ _ hid]
            exact hw.consis id' t
      · intro id' hp
        dsimp only at hp ⊢
        obtain ⟨e', he', hdead⟩ := hw.pending id' hp
        by_cases hid : id' = id0
        · rw [hid] at he' ⊢
          rw [h2] at he'
          have he'' : e = e' := Option.some.inj he'
          rw [← he''] at hdead
          exact ⟨e.addTagInternal (filterTag tag0), by rw [updateFn_same], by
            simpa [Entity.addTagInternal] using hdead⟩
        · exact ⟨e', by rw [updateFn_other _ _ _ _ hid]; exact he', hdead⟩

theorem wf_CreateEntity (w : World) (hw : WF w)
    (hr : -(2 ^ 63) ≤ w.idCounter ∧ w.idCounter < 2 ^ 63 - 1) (pfx : String) :
    WF (w.CreateEntity pfx).1 := by
  have hwr : int64Wrap (w.idCounter + 1) = w.idCounter + 1 :=
    int64Wrap_eq_self _ (by omega) (by omega)
  have hfreshid : w.Entities (mkId pfx w.idCounter) = none := by
    cases h : w.Entities (mkId pfx w.idCounter) with
    | none => rfl
    | some e =>
      obtain ⟨p, k, hid, hk⟩ := hw.fresh _ e h
      have hkk := mkId_counter_inj pfx p w.idCounter k hid
      omega
  show WF (World.AddTag
    { w with idCounter := int64Wrap (w.idCounter + 1)
             Entities := updateFn w.Entities (mkId pfx w.idCounter)
               (some { ID := mkId pfx w.idCounter, tags := [], isAlive := true }) }
    (mkId pfx w.idCounter) pfx)
  apply wf_AddTag
  constructor
  · intro id' e' h'
    dsimp only at h'
    by_cases hid : id' = mkId pfx w.idCounter
    · rw [hid, updateFn_same] at h'
      have he' := Option.some.inj h'
      rw [← he', hid]
    · rw [updateFn_other _ _ _ _ hid] at h'
      exact hw.idOf id' e' h'
  · intro id' e' h'
    dsimp only at h' ⊢
    rw [hwr]
    by_cases hid : id' = mkId pfx w.idCounter
    · exact ⟨pfx, w.idCounter, hid, by omega⟩
    · rw [updateFn_other _ _ _ _ hid] at h'
      obtain ⟨p, k, hid2, hk⟩ := hw.fresh id' e' h'
      exact ⟨p, k, hid2, by omega⟩
  · intro id' e' h' t ht
    dsimp only at h'
    by_cases hid : id' = mkId pfx w.idCounter
    · rw [hid, updateFn_same] at h'
      have he' := Option.some.inj h'
      rw [← he'] at ht
      simp at ht
    · rw [updateFn_other _ _ _ _ hid] at h'
      exact hw.tagsNorm id' e' h' t ht
  · intro id' t
    dsimp only
    by_cases hid : id' = mkId pfx w.idCounter
    · rw [hid, updateFn_same]
      have hc := hw.consis (mkId pfx w.idCounter) t
      rw [hfreshid] at hc
      constructor
      · intro hmem
        obtain ⟨e', he', _⟩ := hc.mp hmem
        exact absurd he' (by simp)
      · rintro ⟨e', he', ht'⟩
        have he2 := Option.some.inj he'
        rw [← he2] at ht'
        simp at ht'
    · rw [updateFn_other _ _ _ _ hid]
      exact hw.consis id' t
  · intro id' hp
    dsimp only at hp ⊢
    obtain ⟨e', he', hdead⟩ := hw.pending id' hp
    by_cases hid : id' = mkId pfx w.idCounter
    · rw [hid] at he'
      rw [hfreshid] at he'
      exact absurd he' (by simp)
    · exact ⟨e', by rw [updateFn_other _ _ _ _ hid]; exact he', hdead⟩

theorem fresh_not_present (w : World) (hw : WF w) (pfx : String) :
    w.Entities (mkId pfx w.idCounter) = none := by
  cases h : w.Entities (mkId pfx w.idCounter) with
  | none => rfl
  | some e =>
    obtain ⟨p, k, hid, hk⟩ := hw.fresh _ e h
    have hkk := mkId_counter_inj pfx p w.idCounter k hid
    omega

theorem fresh_not_indexed (w : World) (hw : WF w) (pfx : String) :
    ∀ t, mkId pfx w.idCounter ∉ w.tagIndex t := by
  intro t hmem
  obtain ⟨e, he, _⟩ := (hw.consis _ t).mp hmem
  rw [fresh_not_present w hw pfx] at he
  exact absurd he (by simp)

theorem CreateEntity_eq (w : World) (pfx : String) :
    w.CreateEntity pfx =
      (World.AddTag
        { w with idCounter := int64Wrap (w.idCounter + 1)
                 Entities := updateFn w.Entities (mkId pfx w.idCounter)
                   (some { ID := mkId pfx w.idCounter, tags := [], isAlive := true }) }
        (mkId pfx w.idCounter) pfx,
       mkId pfx w.idCounter) := rfl

theorem runMOps_no_add {T : Type} (eid : String) (ops : List (MOp T)) :
    ∀ cm : ComponentManager T, cm.data eid = none → (∀ op ∈ ops, ¬ op.addsTo eid) →
      (runMOps ops cm).data eid = none := by
  induction ops with
  | nil => intro cm h _; exact h
  | cons op rest ih =>
    intro cm h hall
    show ((op :: rest).foldl applyMOp cm).data eid = none
    rw [List.foldl_cons]
    refine ih (applyMOp cm op) ?_ (fun o ho => hall o (List.mem_cons_of_mem _ ho))
    cases op with
    | add e' v =>
      have hne : ¬(e' = eid) := hall (.add e' v) (List.mem_cons_self _ _)
      have hne' : eid ≠ e' := fun hx => hne hx.symm
      show (cm.Add e' v).data eid = none
      simp [ComponentManager.Add, hne', h]
    | remove e' =>
      show (cm.Remove e').data eid = none
      by_cases hx : eid = e' <;> simp [ComponentManager.Remove, hx, h]

/-- C10 — `CreateEntity(prefix)` auto-tags the returned entity with the
normalized prefix before the caller does anything: `HasTag` is already true
and the entity already appears in `GetEntitiesByTag(prefix)`. -/
theorem createEntity_auto_tag (w : World) (pfx : String) (h : filterTag pfx ≠ "") :
    (w.CreateEntity pfx).1.HasTag (w.CreateEntity pfx).2 pfx = true
    ∧ (w.CreateEntity pfx).2 ∈ (w.CreateEntity pfx).1.GetEntitiesByTag pfx := by
  rw [CreateEntity_eq]
  dsimp only
  have hE : ({ w with idCounter := int64Wrap (w.idCounter + 1),
                      Entities := updateFn w.Entities (mkId pfx w.idCounter)
                        (some { ID := mkId pfx w.idCounter, tags := [], isAlive := true }) } :
      World).Entities (mkId pfx w.idCounter) =
      some { ID := mkId pfx w.idCounter, tags := [], isAlive := true } := by
    dsimp only
    exact updateFn_same _ _ _
  rw [AddTag_new _ _ _ { ID := mkId pfx w.idCounter, tags := [], isAlive := true } h hE rfl]
  constructor
  · simp only [World.HasTag]
    rw [updateFn_same]
    simp [Entity.addTagInternal, Entity.hasTagInternal, contains_iff_mem]
  · simp only [World.GetEntitiesByTag]
    rw [updateFn_same, mem_mapInsert]
    exact Or.inr rfl

/-- Witness for C10 at `NewWorld` and prefix `"player"`. -/
theorem createEntity_auto_tag_witness :
    filterTag "player" ≠ ""
    ∧ (NewWorld.CreateEntity "player").1.HasTag (NewWorld.CreateEntity "player").2 "player" = true
    ∧ (NewWorld.CreateEntity "player").2 ∈
        (NewWorld.CreateEntity "player").1.GetEntitiesByTag "player" := by
  have h := createEntity_auto_tag NewWorld "player" (by decide)
  exact ⟨by decide, h.1, h.2⟩

/-- Counterexample to C1 as stated: immediately after
`CreateEntity("player")`, `HasTag(e, "player")` is already true — the new
entity is *not* absent from every tag store, because `CreateEntity`
auto-adds the prefix as a tag. -/
theorem createEntity_auto_tag_cex :
    (NewWorld.CreateEntity "player").1.HasTag
      (NewWorld.CreateEntity "player").2 "player" = true := by
  decide

/-- C1 (amended) — immediately after `CreateEntity(prefix)` the entity is
alive, carries exactly the auto-added normalized prefix tag (`HasTag(e,t)`
and membership in `GetEntitiesByTag(t)` hold precisely when the normalized
`t` equals the non-empty normalized prefix, and for no other tag), and every
`ComponentManager` reports absence (`Has` false, `Get` none) after any
sequence of store operations that never `Add`s to this entity. -/
theorem createEntity_fresh_state (w : World) (hw : WF w) (pfx : String) :
    (w.CreateEntity pfx).1.IsAlive
        ((w.CreateEntity pfx).1.GetEntity (w.CreateEntity pfx).2) = true
    ∧ (∀ t, (w.CreateEntity pfx).1.HasTag (w.CreateEntity pfx).2 t = true ↔
        (filterTag pfx ≠ "" ∧ filterTag t = filterTag pfx))
    ∧ (∀ t, (w.CreateEntity pfx).2 ∈ (w.CreateEntity pfx).1.GetEntitiesByTag t ↔
        (filterTag pfx ≠ "" ∧ filterTag t = filterTag pfx))
    ∧ (∀ (T : Type) (ops : List (MOp T)),
        (∀ op ∈ ops, ¬ op.addsTo (w.CreateEntity pfx).2) →
        (runMOps ops (NewComponentManager T)).Has (w.CreateEntity pfx).2 = false
        ∧ (runMOps ops (NewComponentManager T)).Get (w.CreateEntity pfx).2 = none) := by
  rw [CreateEntity_eq]
  dsimp only
  have hE : ({ w with idCounter := int64Wrap (w.idCounter + 1),
                      Entities := updateFn w.Entities (mkId pfx w.idCounter)
                        (some { ID := mkId pfx w.idCounter, tags := [], isAlive := true }) } :
      World).Entities (mkId pfx w.idCounter) =
      some { ID := mkId pfx w.idCounter, tags := [], isAlive := true } := by
    dsimp only
    exact updateFn_same _ _ _
  have hcomp : ∀ (T : Type) (ops : List (MOp T)),
      (∀ op ∈ ops, ¬ op.addsTo (mkId pfx w.idCounter)) →
      (runMOps ops (NewComponentManager T)).Has (mkId pfx w.idCounter) = false
      ∧ (runMOps ops (NewComponentManager T)).Get (mkId pfx w.idCounter) = none := by
    intro T ops hno
    have hn := runMOps_no_add (mkId pfx w.idCounter) ops (NewComponentManager T) rfl hno
    exact ⟨by simp [ComponentManager.Has, hn], hn⟩
  by_cases hp : filterTag pfx = ""
  · rw [AddTag_empty _ _ _ hp]
    refine ⟨?_, ?_, ?_, hcomp⟩
    · simp [World.GetEntity, World.IsAlive, updateFn_same]
    · intro t
      simp only [World.HasTag]
      rw [updateFn_same]
      simp [Entity.hasTagInternal, hp]
    · intro t
      simp only [World.GetEntitiesByTag]
      constructor
      · intro hmem
        exact absurd hmem (fresh_not_indexed w hw pfx (filterTag t))
      · rintro ⟨hne, _⟩
        exact absurd hp hne
  · rw [AddTag_new _ _ _ { ID := mkId pfx w.idCounter, tags := [], isAlive := true } hp hE rfl]
    refine ⟨?_, ?_, ?_, hcomp⟩
    · simp [World.GetEntity, World.IsAlive, updateFn_same, Entity.addTagInternal]
    · intro t
      simp only [World.HasTag]
      rw [updateFn_same]
      simp [Entity.addTagInternal, Entity.hasTagInternal, contains_iff_mem, hp, eq_comm]
    · intro t
      simp only [World.GetEntitiesByTag]
      by_cases hft : filterTag t = filterTag pfx
      · rw [hft, updateFn_same, mem_mapInsert]
        constructor
        · intro _
          exact ⟨hp, rfl⟩
        · intro _
          exact Or.inr rfl
      · rw [updateFn_other _ _ _ _ hft]
        constructor
        · intro hmem
          exact absurd hmem (fresh_not_indexed w hw pfx (filterTag t))
        · rintro ⟨_, hft'⟩
          exact absurd hft' hft

/-- Witness for the amended C1 at `NewWorld` with prefix `"player"`: the
fresh entity is alive, lacks the unrelated tag `"enemy"`, is not listed
under `"enemy"`, and a component store with no `Add` for it reports
absence. -/
theorem createEntity_fresh_state_witness :
    (NewWorld.CreateEntity "player").1.IsAlive
        ((NewWorld.CreateEntity "player").1.GetEntity (NewWorld.CreateEntity "player").2) = true
    ∧ (NewWorld.CreateEntity "player").1.HasTag (NewWorld.CreateEntity "player").2 "enemy" = false
    ∧ (NewWorld.CreateEntity "player").2 ∉
        (NewWorld.CreateEntity "player").1.GetEntitiesByTag "enemy"
    ∧ (runMOps ([] : List (MOp Nat)) (NewComponentManager Nat)).Has
        (NewWorld.CreateEntity "player").2 = false := by
  have h := createEntity_fresh_state NewWorld wf_new "player"
  refine ⟨h.1, ?_, ?_, (h.2.2.2 Nat [] (by simp)).1⟩
  · have h2 := h.2.1 "enemy"
    have hne : ¬(filterTag "player" ≠ "" ∧ filterTag "enemy" = filterTag "player") := by decide
    cases hct : (NewWorld.CreateEntity "player").1.HasTag
        (NewWorld.CreateEntity "player").2 "enemy"
    · rfl
    · exact absurd (h2.mp hct) hne
  · intro hmem
    exact absurd ((h.2.2.1 "enemy").mp hmem) (by decide)

/-- C7 — `DestroyEntity` is an idempotent no-op on dead or unknown
entities (the world is left entirely unchanged) and appends a live entity to
the pending-deletion list exactly once: after the first call the entity's
identifier occurs exactly once in the list, and any further calls before a
`Cleanup` leave that count at one. -/
theorem destroyEntity_idempotent (w : World) (id0 : String) :
    (w.IsAlive (w.GetEntity id0) = false → w.DestroyEntity id0 = w)
    ∧ (WF w → ∀ e, w.Entities id0 = some e → e.isAlive = true →
        (w.DestroyEntity id0).entitiesToDelete.count id0 = 1
        ∧ ∀ n : Nat,
          ((fun w' => World.DestroyEntity w' id0)^[n]
            (w.DestroyEntity id0)).entitiesToDelete.count id0 = 1) := by
  have hnoop : ∀ w' : World, w'.IsAlive (w'.GetEntity id0) = false →
      w'.DestroyEntity id0 = w' := by
    intro w' hdead
    unfold World.DestroyEntity
    cases h : w'.Entities id0 with
    | none => rfl
    | some e =>
      have he : e.isAlive = false := by
        simpa [World.IsAlive, World.GetEntity, h] using hdead
      simp [he]
  constructor
  · exact hnoop w
  · intro hw e he halive
    have hnot : id0 ∉ w.entitiesToDelete := by
      intro hmem
      obtain ⟨e', he', hdead⟩ := hw.pending id0 hmem
      rw [he] at he'
      have hee : e = e' := Option.some.inj he'
      rw [← hee, halive] at hdead
      exact absurd hdead (by simp)
    have hD : w.DestroyEntity id0 =
        { w with Entities := updateFn w.Entities id0 (some { e with isAlive := false }),
                 entitiesToDelete := w.entitiesToDelete ++ [id0] } := by
      simp [World.DestroyEntity, he, halive]
    have hcount : (w.DestroyEntity id0).entitiesToDelete.count id0 = 1 := by
      rw [hD]
      dsimp only
      rw [List.count_append, List.count_eq_zero.mpr hnot]
      simp
    have hfix : World.DestroyEntity (w.DestroyEntity id0) id0 = w.DestroyEntity id0 := by
      apply hnoop
      rw [hD]
      simp [World.GetEntity, World.IsAlive, updateFn_same]
    refine ⟨hcount, fun n => ?_⟩
    rw [Function.iterate_fixed hfix n]
    exact hcount

/-- Witness for C7 at a one-entity world: destroying the unknown identifier
`"ghost"` changes nothing; destroying the live `"player_0"` puts exactly one
entry in the pending list, and two further destroy calls leave it at one. -/
theorem destroyEntity_idempotent_witness :
    (NewWorld.CreateEntity "player").1.DestroyEntity "ghost" = (NewWorld.CreateEntity "player").1
    ∧ ((NewWorld.CreateEntity "player").1.DestroyEntity "player_0").entitiesToDelete.count
        "player_0" = 1
    ∧ ((fun w' => World.DestroyEntity w' "player_0")^[2]
        ((NewWorld.CreateEntity "player").1.DestroyEntity "player_0")).entitiesToDelete.count
        "player_0" = 1 := by
  have hg := (destroyEntity_idempotent (NewWorld.CreateEntity "player").1 "ghost").1 (by decide)
  have hp := (destroyEntity_idempotent (NewWorld.CreateEntity "player").1 "player_0").2
    (wf_CreateEntity NewWorld wf_new (by decide) "player") ⟨"player_0", ["player"], true⟩ (by decide) rfl
  exact ⟨hg, hp.1, hp.2 2⟩

/-! ## Cleanup lemmas (C3) -/

theorem tagfold_mem (eid : String) (tags : List String) :
    ∀ (idx : String → List String) (t x : String),
      x ∈ (tags.foldl
            (fun ix t' => updateFn ix t' ((ix t').filter (fun y => y ≠ eid))) idx) t ↔
        (x ∈ idx t ∧ ¬(t ∈ tags ∧ x = eid)) := by
  induction tags with
  | nil => intro idx t x; simp
  | cons t0 rest ih =>
    intro idx t x
    rw [List.foldl_cons, ih]
    by_cases ht : t = t0
    · rw [ht, updateFn_same, List.mem_filter]
      simp only [decide_eq_true_eq, List.mem_cons]
      constructor
      · rintro ⟨⟨hm, hne⟩, _⟩
        exact ⟨hm, fun hx => hne hx.2⟩
      · rintro ⟨hm, hn⟩
        exact ⟨⟨hm, fun hx => hn ⟨Or.inl trivial, hx⟩⟩, fun hx => hn ⟨Or.inr hx.1, hx.2⟩⟩
    · rw [updateFn_other _ _ _ _ ht]
      simp only [List.mem_cons]
      constructor
      · rintro ⟨hm, hn⟩
        exact ⟨hm, fun hx => hx.1.elim (fun h0 => ht h0) (fun hr => hn ⟨hr, hx.2⟩)⟩
      · rintro ⟨hm, hn⟩
        exact ⟨hm, fun hx => hn ⟨Or.inr hx.1, hx.2⟩⟩

theorem cleanupStep_eq_none (w : World) (a : String) (h : w.Entities a = none) :
    cleanupStep w a = w := by
  simp [cleanupStep, h]

theorem cleanupStep_eq_some (w : World) (a : String) (e : Entity)
    (h : w.Entities a = some e) :
    cleanupStep w a =
      { w with
        tagIndex := e.tags.foldl
          (fun idx t => updateFn idx t ((idx t).filter (fun x => x ≠ e.ID))) w.tagIndex
        Entities := updateFn w.Entities a none } := by
  simp [cleanupStep, h]

theorem cleanupStep_absent (w : World) (a id1 : String)
    (h1 : w.Entities a = none) (h2 : ∀ t, a ∉ w.tagIndex t) :
    (cleanupStep w id1).Entities a = none ∧ ∀ t, a ∉ (cleanupStep w id1).tagIndex t := by
  cases he : w.Entities id1 with
  | none => rw [cleanupStep_eq_none w id1 he]; exact ⟨h1, h2⟩
  | some e =>
    rw [cleanupStep_eq_some w id1 e he]
    constructor
    · dsimp only
      by_cases hid : a = id1
      · rw [hid, updateFn_same]
      · rw [updateFn_other _ _ _ _ hid]; exact h1
    · intro t
      dsimp only
      rw [tagfold_mem]
      rintro ⟨hmem, _⟩
      exact h2 t hmem

theorem cleanupFold_absent (idl : List String) : ∀ (w : World) (a : String),
    w.Entities a = none → (∀ t, a ∉ w.tagIndex t) →
    (idl.foldl cleanupStep w).Entities a = none
    ∧ ∀ t, a ∉ (idl.foldl cleanupStep w).tagIndex t := by
  induction idl with
  | nil => intro w a h1 h2; exact ⟨h1, h2⟩
  | cons b rest ih =>
    intro w a h1 h2
    rw [List.foldl_cons]
    obtain ⟨h1', h2'⟩ := cleanupStep_absent w a b h1 h2
    exact ih (cleanupStep w b) a h1' h2'

theorem cleanupStep_achieves (w : World) (a : String)
    (HQ : ∀ t, a ∈ w.tagIndex t ↔ ∃ e, w.Entities a = some e ∧ t ∈ e.tags)
    (HID : ∀ id e, w.Entities id = some e → e.ID = id) :
    (cleanupStep w a).Entities a = none ∧ ∀ t, a ∉ (cleanupStep w a).tagIndex t := by
  cases he : w.Entities a with
  | none =>
    rw [cleanupStep_eq_none w a he]
    refine ⟨he, fun t hmem => ?_⟩
    obtain ⟨e, he', _⟩ := (HQ t).mp hmem
    rw [he] at he'
    exact absurd he' (by simp)
  | some e =>
    have hID : e.ID = a := HID a e he
    rw [cleanupStep_eq_some w a e he]
    constructor
    · dsimp only
      rw [updateFn_same]
    · intro t
      dsimp only
      rw [tagfold_mem]
      rintro ⟨hmem, hn⟩
      obtain ⟨e', he', ht'⟩ := (HQ t).mp hmem
      rw [he] at he'
      have hee : e = e' := Option.some.inj he'
      rw [← hee] at ht'
      exact hn ⟨ht', hID.symm⟩

theorem cleanupStep_pres (w : World) (b a : String) (hab : a ≠ b)
    (HQ : ∀ t, a ∈ w.tagIndex t ↔ ∃ e, w.Entities a = some e ∧ t ∈ e.tags)
    (HID : ∀ id e, w.Entities id = some e → e.ID = id) :
    (∀ t, a ∈ (cleanupStep w b).tagIndex t ↔
      ∃ e, (cleanupStep w b).Entities a = some e ∧ t ∈ e.tags)
    ∧ (∀ id e, (cleanupStep w b).Entities id = some e → e.ID = id) := by
  cases he : w.Entities b with
  | none => rw [cleanupStep_eq_none w b he]; exact ⟨HQ, HID⟩
  | some e =>
    have hIDb : e.ID = b := HID b e he
    rw [cleanupStep_eq_some w b e he]
    constructor
    · intro t
      dsimp only
      rw [tagfold_mem, updateFn_other _ _ _ _ hab, HQ t]
      constructor
      · rintro ⟨hex, _⟩; exact hex
      · intro hex
        exact ⟨hex, fun hx => hab (hx.2.trans hIDb)⟩
    · intro id1 e1 h1
      dsimp only at h1
      by_cases hid : id1 = b
      · rw [hid, updateFn_same] at h1
        exact absurd h1 (by simp)
      · rw [updateFn_other _ _ _ _ hid] at h1
        exact HID id1 e1 h1

theorem cleanupFold_removes (idl : List String) : ∀ (w : World) (a : String),
    (∀ t, a ∈ w.tagIndex t ↔ ∃ e, w.Entities a = some e ∧ t ∈ e.tags) →
    (∀ id e, w.Entities id = some e → e.ID = id) →
    a ∈ idl →
    (idl.foldl cleanupStep w).Entities a = none
    ∧ ∀ t, a ∉ (idl.foldl cleanupStep w).tagIndex t := by
  induction idl with
  | nil => intro w a _ _ hmem; exact absurd hmem (List.not_mem_nil a)
  | cons b rest ih =>
    intro w a HQ HID hmem
    rw [List.foldl_cons]
    by_cases hab : a = b
    · rw [← hab]
      obtain ⟨h1, h2⟩ := cleanupStep_achieves w a HQ HID
      exact cleanupFold_absent rest (cleanupStep w a) a h1 h2
    · obtain ⟨hQ', hID'⟩ := cleanupStep_pres w b a hab HQ HID
      have hmem' : a ∈ rest := by
        rcases List.mem_cons.mp hmem with h | h
        · exact absurd h hab
        · exact h
      exact ih (cleanupStep w b) a hQ' hID' hmem'

/-- C3 — deferred deletion: after `DestroyEntity(e.ID)` and before
`Cleanup`, the entity reports not-alive but is still present (`GetEntity`
non-nil) and still listed under each of its tags; after `Cleanup` it is gone
from the liveness set and from every tag query. -/
theorem deferred_deletion (w : World) (hw : WF w) (id0 : String) (e : Entity)
    (he : w.Entities id0 = some e) (halive : e.isAlive = true) :
    (w.DestroyEntity id0).IsAlive ((w.DestroyEntity id0).GetEntity id0) = false
    ∧ (w.DestroyEntity id0).GetEntity id0 ≠ none
    ∧ (∀ t ∈ e.tags, id0 ∈ (w.DestroyEntity id0).GetEntitiesByTag t)
    ∧ (w.DestroyEntity id0).Cleanup.GetEntity id0 = none
    ∧ (∀ t, id0 ∉ (w.DestroyEntity id0).Cleanup.GetEntitiesByTag t) := by
  have hD : w.DestroyEntity id0 =
      { w with Entities := updateFn w.Entities id0 (some { e with isAlive := false }),
               entitiesToDelete := w.entitiesToDelete ++ [id0] } := by
    simp [World.DestroyEntity, he, halive]
  have hQ1 : ∀ t, id0 ∈ (w.DestroyEntity id0).tagIndex t ↔
      ∃ e', (w.DestroyEntity id0).Entities id0 = some e' ∧ t ∈ e'.tags := by
    intro t
    rw [hD]
    dsimp only
    rw [updateFn_same]
    constructor
    · intro hmem
      obtain ⟨e'', he'', ht''⟩ := (hw.consis id0 t).mp hmem
      rw [he] at he''
      have hee : e = e'' := Option.some.inj he''
      rw [← hee] at ht''
      exact ⟨{ e with isAlive := false }, rfl, ht''⟩
    · rintro ⟨e', he', ht'⟩
      have hee : { e with isAlive := false } = e' := Option.some.inj he'
      rw [← hee] at ht'
      exact (hw.consis id0 t).mpr ⟨e, he, ht'⟩
  have hID1 : ∀ id' e', (w.DestroyEntity id0).Entities id' = some e' → e'.ID = id' := by
    intro id' e' h'
    rw [hD] at h'
    dsimp only at h'
    by_cases hid : id' = id0
    · rw [hid, updateFn_same] at h'
      have hee : { e with isAlive := false } = e' := Option.some.inj h'
      rw [← hee, hid]
      exact hw.idOf id0 e he
    · rw [updateFn_other _ _ _ _ hid] at h'
      exact hw.idOf id' e' h'
  have hmem1 : id0 ∈ (w.DestroyEntity id0).entitiesToDelete := by
    rw [hD]
    simp
  have hrem := cleanupFold_removes (w.DestroyEntity id0).entitiesToDelete
    (w.DestroyEntity id0) id0 hQ1 hID1 hmem1
  refine ⟨?_, ?_, ?_, ?_, ?_⟩
  · rw [hD]
    simp [World.GetEntity, World.IsAlive, updateFn_same]
  · rw [hD]
    simp [World.GetEntity, updateFn_same]
  · intro t ht
    rw [hD]
    simp only [World.GetEntitiesByTag]
    obtain ⟨hnorm, _⟩ := hw.tagsNorm id0 e he t ht
    rw [hnorm]
    exact (hw.consis id0 t).mpr ⟨e, he, ht⟩
  · simp only [World.Cleanup, World.GetEntity]
    exact hrem.1
  · intro t
    simp only [World.Cleanup, World.GetEntitiesByTag]
    exact hrem.2 (filterTag t)

/-- Witness for C3: create `"player_0"` (tagged `"player"`), destroy it;
before cleanup it is dead but present and still listed under `"player"`;
after cleanup it is gone from both the liveness set and the tag query. -/
theorem deferred_deletion_witness :
    ((NewWorld.CreateEntity "player").1.DestroyEntity "player_0").IsAlive
      (((NewWorld.CreateEntity "player").1.DestroyEntity "player_0").GetEntity "player_0") = false
    ∧ ((NewWorld.CreateEntity "player").1.DestroyEntity "player_0").GetEntity "player_0" ≠ none
    ∧ "player_0" ∈
        ((NewWorld.CreateEntity "player").1.DestroyEntity "player_0").GetEntitiesByTag "player"
    ∧ ((NewWorld.CreateEntity "player").1.DestroyEntity "player_0").Cleanup.GetEntity
        "player_0" = none
    ∧ "player_0" ∉
        ((NewWorld.CreateEntity "player").1.DestroyEntity
          "player_0").Cleanup.GetEntitiesByTag "player" := by
  have h := deferred_deletion (NewWorld.CreateEntity "player").1
    (wf_CreateEntity NewWorld wf_new (by decide) "player") "player_0" ⟨"player_0", ["player"], true⟩
    (by decide) rfl
  exact ⟨h.1, h.2.1, h.2.2.1 "player" (by decide), h.2.2.2.1, h.2.2.2.2 "player"⟩

/-! ## Identifier non-reuse (C8) -/

theorem AddTag_idCounter (w : World) (id0 t0 : String) :
    (w.AddTag id0 t0).idCounter = w.idCounter := by
  by_cases h1 : filterTag t0 = ""
  · rw [AddTag_empty w id0 t0 h1]
  · cases h2 : w.Entities id0 with
    | none => rw [AddTag_none w id0 t0 h1 h2]
    | some e =>
      cases h3 : e.hasTagInternal (filterTag t0) with
      | true => rw [AddTag_has w id0 t0 e h1 h2 h3]
      | false => rw [AddTag_new w id0 t0 e h1 h2 h3]

theorem CreateEntity_idCounter (w : World) (p : String) :
    (w.CreateEntity p).1.idCounter = int64Wrap (w.idCounter + 1) := by
  rw [CreateEntity_eq]
  dsimp only
  rw [AddTag_idCounter]

theorem CreateEntity_snd (w : World) (p : String) :
    (w.CreateEntity p).2 = mkId p w.idCounter := rfl

theorem DestroyEntity_idCounter (w : World) (id0 : String) :
    (w.DestroyEntity id0).idCounter = w.idCounter := by
  unfold World.DestroyEntity
  cases h : w.Entities id0 with
  | none => rfl
  | some e => cases ha : e.isAlive <;> simp [ha]

theorem cleanupStep_idCounter (w : World) (id0 : String) :
    (cleanupStep w id0).idCounter = w.idCounter := by
  unfold cleanupStep
  cases h : w.Entities id0 <;> rfl

theorem cleanupFold_idCounter (idl : List String) : ∀ w : World,
    (idl.foldl cleanupStep w).idCounter = w.idCounter := by
  induction idl with
  | nil => intro w; rfl
  | cons b rest ih =>
    intro w
    rw [List.foldl_cons, ih, cleanupStep_idCounter]

theorem Cleanup_idCounter (w : World) : w.Cleanup.idCounter = w.idCounter :=
  cleanupFold_idCounter w.entitiesToDelete w

theorem applyWOp_eq (s : World × List String) (op : WOp) :
    applyWOp s op =
      match op with
      | .create p => ((s.1.CreateEntity p).1, s.2 ++ [(s.1.CreateEntity p).2])
      | .destroy id => (s.1.DestroyEntity id, s.2)
      | .cleanup => (s.1.Cleanup, s.2) := by
  obtain ⟨w, ids⟩ := s
  cases op <;> rfl

theorem runWOps_append (ops : List WOp) (op : WOp) :
    runWOps (ops ++ [op]) = applyWOp (runWOps ops) op := by
  unfold runWOps
  rw [List.foldl_append, List.foldl_cons, List.foldl_nil]

/-- Counterexample to C8 as stated: identifiers ARE reused once the 64-bit
counter wraps.  On the trace of `2^64 + 1` consecutive `CreateEntity("e")`
calls, the first and the `2^64`-th creation both see counter value `0` and
return the same identifier, so the list of returned identifiers has a
duplicate. -/
theorem createEntity_ids_wrap_cex :
    ¬ ((runWOps (List.replicate (2 ^ 64 + 1) (WOp.create "e"))).2).Nodup := by
  have hrep : ∀ n : Nat,
      (runWOps (List.replicate n (WOp.create "e"))).2 =
        (List.range n).map (fun i : Nat => mkId "e" (int64Wrap (i : Int)))
      ∧ (runWOps (List.replicate n (WOp.create "e"))).1.idCounter =
        int64Wrap (n : Int) := by
    intro n
    induction n with
    | zero =>
      constructor
      · rfl
      · show (0 : Int) = int64Wrap ((0 : Nat) : Int)
        unfold int64Wrap
        omega
    | succ n ih =>
      have hr : List.replicate (n + 1) (WOp.create "e") =
          List.replicate n (WOp.create "e") ++ [WOp.create "e"] := List.replicate_succ' _ _
      rw [hr, runWOps_append, applyWOp_eq]
      constructor
      · show (runWOps (List.replicate n (WOp.create "e"))).2 ++
            [((runWOps (List.replicate n (WOp.create "e"))).1.CreateEntity "e").2] = _
        rw [ih.1, CreateEntity_snd, ih.2, List.range_succ, List.map_append]
        simp
      · show ((runWOps (List.replicate n (WOp.create "e"))).1.CreateEntity "e").1.idCounter = _
        rw [CreateEntity_idCounter, ih.2, int64Wrap_step]
        congr 1
  intro hnd
  rw [(hrep (2 ^ 64 + 1)).1, List.range_succ, List.map_append, List.nodup_append] at hnd
  obtain ⟨-, -, hdisj⟩ := hnd
  have hw : int64Wrap ((0 : Nat) : Int) = int64Wrap (((2 ^ 64 : Nat) : Int)) := by
    unfold int64Wrap
    push_cast
  exact hdisj
    (List.mem_map.mpr ⟨0, List.mem_range.mpr (by omega), rfl⟩)
    (List.mem_map.mpr ⟨2 ^ 64, List.mem_singleton.mpr rfl,
      congrArg (mkId "e") hw.symm⟩)

/-- C8 (amended) — identifier non-reuse up to the identifier width: the
internal counter follows the wrapping 64-bit increment of Go — advanced by
exactly one wrapping step at each creation and never changed by
`DestroyEntity` or `Cleanup` — and along any trace from `NewWorld` with at
most `2^64` creations (one full counter period) the identifiers returned by
the `CreateEntity` calls are pairwise distinct. -/
theorem entity_ids_never_reused :
    (∀ ops : List WOp, createCount ops ≤ 2 ^ 64 → ((runWOps ops).2).Nodup)
    ∧ (∀ (ops : List WOp) (op : WOp),
        (runWOps (ops ++ [op])).1.idCounter =
          (match op with
            | WOp.create _ => int64Wrap ((runWOps ops).1.idCounter + 1)
            | WOp.destroy _ => (runWOps ops).1.idCounter
            | WOp.cleanup => (runWOps ops).1.idCounter)) := by
  have hstep : ∀ (s : World × List String) (op : WOp),
      (s.1.idCounter = int64Wrap (s.2.length : Int)
        ∧ (∀ id ∈ s.2, ∃ (p : String) (k : Nat),
            id = mkId p (int64Wrap (k : Int)) ∧ k < s.2.length)
        ∧ s.2.Nodup) →
      (op.isCreate = true → s.2.length < 2 ^ 64) →
      ((applyWOp s op).1.idCounter = int64Wrap ((applyWOp s op).2.length : Int)
        ∧ (∀ id ∈ (applyWOp s op).2, ∃ (p : String) (k : Nat),
            id = mkId p (int64Wrap (k : Int)) ∧ k < (applyWOp s op).2.length)
        ∧ (applyWOp s op).2.Nodup)
      ∧ (applyWOp s op).2.length = s.2.length + (if op.isCreate then 1 else 0) := by
    rintro ⟨w, ids⟩ op ⟨hcnt, hinv, hnd⟩ hbound
    dsimp only at hcnt hinv hnd
    cases op with
    | create p =>
      have hb : ids.length < 2 ^ 64 := hbound rfl
      have hlen : (ids ++ [(w.CreateEntity p).2]).length = ids.length + 1 := by simp
      refine ⟨⟨?_, ?_, ?_⟩, ?_⟩
      · show (w.CreateEntity p).1.idCounter =
          int64Wrap ((ids ++ [(w.CreateEntity p).2]).length : Int)
        rw [CreateEntity_idCounter, hcnt, int64Wrap_step, hlen]
        congr 1
      · intro id hid
        show ∃ (p' : String) (k : Nat), id = mkId p' (int64Wrap (k : Int)) ∧
          k < (ids ++ [(w.CreateEntity p).2]).length
        rw [hlen]
        rcases List.mem_append.mp hid with h | h
        · obtain ⟨p', k, h1, h2⟩ := hinv id h
          exact ⟨p', k, h1, by omega⟩
        · rw [List.mem_singleton] at h
          refine ⟨p, ids.length, ?_, by omega⟩
          rw [h, CreateEntity_snd, hcnt]
      · show (ids ++ [(w.CreateEntity p).2]).Nodup
        rw [CreateEntity_snd, List.nodup_append]
        refine ⟨hnd, List.nodup_singleton _, ?_⟩
        intro x hx hx2
        rw [List.mem_singleton] at hx2
        obtain ⟨p', k, hidk, hk⟩ := hinv x hx
        rw [hx2, hcnt] at hidk
        have hww := mkId_counter_inj _ _ _ _ hidk
        have hmod := int64Wrap_emod _ _ hww
        omega
      · show (ids ++ [(w.CreateEntity p).2]).length = ids.length + 1
        exact hlen
    | destroy i =>
      refine ⟨⟨?_, hinv, hnd⟩, by simp [applyWOp, WOp.isCreate]⟩
      show (w.DestroyEntity i).idCounter = int64Wrap (ids.length : Int)
      rw [DestroyEntity_idCounter]
      exact hcnt
    | cleanup =>
      refine ⟨⟨?_, hinv, hnd⟩, by simp [applyWOp, WOp.isCreate]⟩
      show w.Cleanup.idCounter = int64Wrap (ids.length : Int)
      rw [Cleanup_idCounter]
      exact hcnt
  have hfold : ∀ (l : List WOp) (s : World × List String),
      (s.1.idCounter = int64Wrap (s.2.length : Int)
        ∧ (∀ id ∈ s.2, ∃ (p : String) (k : Nat),
            id = mkId p (int64Wrap (k : Int)) ∧ k < s.2.length)
        ∧ s.2.Nodup) →
      s.2.length + createCount l ≤ 2 ^ 64 →
      ((l.foldl applyWOp s).2).Nodup := by
    intro l
    induction l with
    | nil => intro s hP _; exact hP.2.2
    | cons op rest ih =>
      intro s hP hbnd
      have hcc : createCount (op :: rest) =
          (if op.isCreate then 1 else 0) + createCount rest := by
        unfold createCount
        rw [List.filter_cons]
        cases hco : op.isCreate
        · simp
        · simp
          omega
      rw [hcc] at hbnd
      have hstep' := hstep s op hP (fun hc => by
        rw [hc] at hbnd
        simp at hbnd
        omega)
      rw [List.foldl_cons]
      apply ih (applyWOp s op) hstep'.1
      rw [hstep'.2]
      omega
  constructor
  · intro ops hle
    show ((ops.foldl applyWOp (NewWorld, [])).2).Nodup
    refine hfold ops (NewWorld, []) ⟨?_, ?_, List.nodup_nil⟩ ?_
    · show (0 : Int) = int64Wrap ((([] : List String).length : Nat) : Int)
      simp only [List.length_nil, Nat.cast_zero]
      unfold int64Wrap
      omega
    · intro id hid
      exact absurd hid (List.not_mem_nil id)
    · show ([] : List String).length + createCount ops ≤ 2 ^ 64
      simpa using hle
  · intro ops op
    rw [runWOps_append, applyWOp_eq]
    cases op with
    | create p => exact CreateEntity_idCounter (runWOps ops).1 p
    | destroy i => exact DestroyEntity_idCounter (runWOps ops).1 i
    | cleanup => exact Cleanup_idCounter (runWOps ops).1

/-- Witness for the amended C8 at a small concrete trace (two creations,
one destroy, one cleanup): the creation count is within the width bound and
the returned identifiers are duplicate-free. -/
theorem entity_ids_never_reused_witness :
    createCount [WOp.create "a", WOp.create "b", WOp.destroy "a_0", WOp.cleanup] ≤ 2 ^ 64
    ∧ ((runWOps [WOp.create "a", WOp.create "b", WOp.destroy "a_0",
        WOp.cleanup]).2).Nodup := by
  exact ⟨by decide, entity_ids_never_reused.1 _ (by decide)⟩

/-! ## Tag normalization round-trip (C9) -/

theorem RemoveTag_empty (w : World) (id0 t0 : String) (h : filterTag t0 = "") :
    w.RemoveTag id0 t0 = w := by
  simp [World.RemoveTag, h]

/-- C9 — every tag operation first normalizes its raw string (lowercasing
ASCII letters and keeping only lowercase letters, digits and underscore),
normalization is idempotent, an empty normalized result is a no-op, and
concretely `AddTag(e, "Boss-Type!!!")` makes `HasTag(e, "bosstype")` true
and puts `e` in `GetEntitiesByTag("BOSSTYPE")`. -/
theorem tag_normalization_roundtrip (w : World) (hw : WF w) (id0 : String) (e : Entity)
    (he : w.Entities id0 = some e) :
    (∀ s, filterTag (filterTag s) = filterTag s)
    ∧ (∀ t, w.AddTag id0 t = w.AddTag id0 (filterTag t))
    ∧ (∀ t, w.HasTag id0 t = w.HasTag id0 (filterTag t))
    ∧ (∀ t, w.GetEntitiesByTag t = w.GetEntitiesByTag (filterTag t))
    ∧ (∀ t, filterTag t = "" →
        w.AddTag id0 t = w ∧ w.RemoveTag id0 t = w ∧ w.HasTag id0 t = false)
    ∧ filterTag "Boss-Type!!!" = "bosstype"
    ∧ (w.AddTag id0 "Boss-Type!!!").HasTag id0 "bosstype" = true
    ∧ id0 ∈ (w.AddTag id0 "Boss-Type!!!").GetEntitiesByTag "BOSSTYPE" := by
  have hbt : filterTag "Boss-Type!!!" = "bosstype" := by decide
  have hb2 : filterTag "bosstype" = "bosstype" := by decide
  have hBT : filterTag "BOSSTYPE" = "bosstype" := by decide
  refine ⟨filterTag_idem, ?_, ?_, ?_, ?_, hbt, ?_, ?_⟩
  · intro t
    simp [World.AddTag, filterTag_idem]
  · intro t
    simp [World.HasTag, filterTag_idem]
  · intro t
    simp [World.GetEntitiesByTag, filterTag_idem]
  · intro t ht
    refine ⟨AddTag_empty w id0 t ht, RemoveTag_empty w id0 t ht, ?_⟩
    have hno : "" ∉ e.tags := fun hm => (hw.tagsNorm id0 e he "" hm).2 rfl
    simp only [World.HasTag, he, ht]
    cases hc : e.hasTagInternal "" with
    | false => rfl
    | true => exact absurd ((contains_iff_mem e.tags "").mp hc) hno
  · by_cases hhas : e.hasTagInternal (filterTag "Boss-Type!!!") = true
    · rw [AddTag_has w id0 "Boss-Type!!!" e (by decide) he hhas]
      simp only [World.HasTag, he, hb2]
      rw [hbt] at hhas
      exact hhas
    · have hhas' : e.hasTagInternal (filterTag "Boss-Type!!!") = false := by
        simp only [Bool.not_eq_true] at hhas
        exact hhas
      rw [AddTag_new w id0 "Boss-Type!!!" e (by decide) he hhas']
      simp only [World.HasTag]
      rw [updateFn_same]
      simp [Entity.addTagInternal, Entity.hasTagInternal, contains_iff_mem, hbt, hb2]
  · have hID : e.ID = id0 := hw.idOf id0 e he
    by_cases hhas : e.hasTagInternal (filterTag "Boss-Type!!!") = true
    · rw [AddTag_has w id0 "Boss-Type!!!" e (by decide) he hhas]
      simp only [World.GetEntitiesByTag, hBT]
      rw [hbt] at hhas
      exact (hw.consis id0 "bosstype").mpr ⟨e, he, (contains_iff_mem _ _).mp hhas⟩
    · have hhas' : e.hasTagInternal (filterTag "Boss-Type!!!") = false := by
        simp only [Bool.not_eq_true] at hhas
        exact hhas
      rw [AddTag_new w id0 "Boss-Type!!!" e (by decide) he hhas']
      simp only [World.GetEntitiesByTag, hBT]
      rw [hbt, updateFn_same, mem_mapInsert]
      exact Or.inr hID.symm

/-- Witness for C9 on a one-entity world. -/
theorem tag_normalization_roundtrip_witness :
    filterTag "Boss-Type!!!" = "bosstype"
    ∧ ((NewWorld.CreateEntity "player").1.AddTag "player_0" "Boss-Type!!!").HasTag
        "player_0" "bosstype" = true
    ∧ "player_0" ∈ ((NewWorld.CreateEntity "player").1.AddTag "player_0"
        "Boss-Type!!!").GetEntitiesByTag "BOSSTYPE" := by
  have h := tag_normalization_roundtrip (NewWorld.CreateEntity "player").1
    (wf_CreateEntity NewWorld wf_new (by decide) "player") "player_0" ⟨"player_0", ["player"], true⟩
    (by decide)
  exact ⟨h.2.2.2.2.2.1, h.2.2.2.2.2.2.1, h.2.2.2.2.2.2.2⟩

end Ember2D
